import Mathlib

/-!
# The `bin/cli.js` launcher

A shallow embedding of `src/bin/cli.js`: the launcher computes the package root
and the path of `install.sh`, joins its command-line arguments with single
spaces, runs `bash "<installScript>" <args>` through `execSync` with an
environment extended by `PACKAGE_ROOT`, and exits with `err.status || 1` when
`execSync` throws.

The Node.js library functions the script calls (`path.resolve`, `path.join`,
`Array.prototype.join`, object spread, `execSync`, `process.exit`) are modelled
after their documented POSIX behaviour; the script itself is `cli`.
-/

namespace Launcher

/-! ## JavaScript values used by the script -/

/-- The `status` property read from the caught value `err`: missing, `null`,
or an integer exit status. -/
inductive Status where
  | undefined
  | null
  | num (n : Int)
  deriving DecidableEq, Repr

/-- JavaScript `ToBoolean` on a status value: `undefined`, `null` and `0` are falsy. -/
def Status.truthy : Status → Bool
  | .undefined => false
  | .null => false
  | .num n => n != 0

/-- The expression `status || d` for an integer default `d`: the left operand when
it is truthy, the right operand otherwise. -/
def Status.orElse (s : Status) (d : Int) : Int :=
  match s with
  | .num n => if Status.truthy (.num n) then n else d
  | .undefined => d
  | .null => d

/-- The value bound by `catch (err)`; only its `status` property is read. -/
structure JsError where
  status : Status
  deriving DecidableEq, Repr

/-! ## Objects holding environment variables -/

/-- Assignment of property `k` in a property list: an existing property keeps its
position and takes the new value, a new property is appended. -/
def setProp : List (String × String) → String → String → List (String × String)
  | [], k, v => [(k, v)]
  | (k', v') :: rest, k, v =>
    if k' = k then (k', v) :: rest else (k', v') :: setProp rest k v

/-- An object whose properties are strings, such as `process.env`: an ordered list of
own properties with pairwise distinct keys. -/
structure Env where
  props : List (String × String)
  nodup : (props.map Prod.fst).Nodup

/-- The object literal `{}`. -/
def Env.empty : Env := ⟨[], List.nodup_nil⟩

/-- Property read `o[k]`; `none` stands for an absent property. -/
def Env.get (o : Env) (k : String) : Option String := o.props.lookup k

/-- Property write `o[k] = v` for a name `k` that is not an array index. -/
def Env.set (o : Env) (k v : String) : Env :=
  ⟨setProp o.props k v, by
    have hkeys : ∀ l : List (String × String), (setProp l k v).map Prod.fst =
        if k ∈ l.map Prod.fst then l.map Prod.fst else l.map Prod.fst ++ [k] := by
      intro l
      induction l with
      | nil => simp [setProp]
      | cons hd tl ih =>
        obtain ⟨k', v'⟩ := hd
        by_cases h : k' = k
        · simp [setProp, h]
        · have h' : ¬ k = k' := fun e => h e.symm
          simp only [setProp, h, if_false, List.map_cons, ih, List.mem_cons, h', false_or]
          split <;> simp
    rw [hkeys]
    split
    · exact o.nodup
    · rename_i hk
      exact List.Nodup.append o.nodup (List.nodup_singleton k) (by simpa using hk)⟩

/-- The own property names of an object, in order. -/
def Env.keys (o : Env) : List String := o.props.map Prod.fst

/-- The value of a decimal numeral, digit by digit. -/
def numeralValue (digits : List Char) : Nat :=
  digits.foldl (fun n c => 10 * n + (c.toNat - '0'.toNat)) 0

/-- An array index in the sense of ECMAScript: the canonical decimal numeral (no
leading zero) of an integer from 0 to 2^32 - 2. -/
def isArrayIndex (k : String) : Bool :=
  !k.data.isEmpty && k.data.all Char.isDigit &&
    (k.data.length == 1 || k.data.head? != some '0') &&
    decide (numeralValue k.data < 4294967295)

/-- Object spread `{ ...process.env }` into the object `target`, where `src` holds the
variables of the parent environment: the variables are copied in order as own
properties. The environment object answers for named properties only, so a variable
whose name is an array index is not reached by the copy and is left out. -/
def Env.spread (target src : Env) : Env :=
  (src.props.filter (fun kv => !isArrayIndex kv.1)).foldl (fun o kv => o.set kv.1 kv.2) target

/-! ## The POSIX `path` module -/

/-- Cut a character list at every occurrence of `sep` (always at least one piece). -/
def splitOn (sep : Char) : List Char → List (List Char)
  | [] => [[]]
  | c :: cs =>
    if c = sep then [] :: splitOn sep cs
    else
      match splitOn sep cs with
      | [] => [[c]]
      | seg :: segs => (c :: seg) :: segs

/-- Glue pieces together with `sep` between consecutive pieces. -/
def joinWith (sep : Char) : List (List Char) → List Char
  | [] => []
  | [s] => s
  | s :: s' :: t => s ++ sep :: joinWith sep (s' :: t)

/-- The segment walk of Node's `normalizeString`: `acc` is the stack of kept segments
(most recent first). Empty and `.` segments are skipped; `..` removes the most recent
kept segment unless there is none or it is itself `..`, in which case `..` is kept
only when `allowAboveRoot` holds. -/
def normalizeSegs (allowAboveRoot : Bool) : List (List Char) → List (List Char) → List (List Char)
  | acc, [] => acc.reverse
  | acc, seg :: segs =>
    if seg = [] ∨ seg = ['.'] then normalizeSegs allowAboveRoot acc segs
    else if seg = ['.', '.'] then
      match acc with
      | [] =>
        if allowAboveRoot then normalizeSegs allowAboveRoot [['.', '.']] segs
        else normalizeSegs allowAboveRoot [] segs
      | top :: rest =>
        if top = ['.', '.'] then
          if allowAboveRoot then normalizeSegs allowAboveRoot (['.', '.'] :: top :: rest) segs
          else normalizeSegs allowAboveRoot (top :: rest) segs
        else normalizeSegs allowAboveRoot rest segs
    else normalizeSegs allowAboveRoot (seg :: acc) segs

/-- Node's `normalizeString(path, allowAboveRoot, "/", isPosixPathSeparator)`. -/
def normalizeString (path : String) (allowAboveRoot : Bool) : String :=
  String.mk (joinWith '/' (normalizeSegs allowAboveRoot [] (splitOn '/' path.data)))

/-- The test `path.charCodeAt(0) === CHAR_FORWARD_SLASH`. -/
def isAbsolute (path : String) : Bool := path.data.head? = some '/'

/-- The right-to-left loop of `path.resolve`: `paths` holds the arguments not yet
visited, last argument first; when they run out the working directory `cwd` is used.
Returns `resolvedPath` and `resolvedAbsolute`. -/
def resolveLoop (cwd : String) (resolvedPath : String) : List String → String × Bool
  | [] =>
    if cwd.data = [] then (resolvedPath, false)
    else (cwd ++ "/" ++ resolvedPath, isAbsolute cwd)
  | p :: ps =>
    if p.data = [] then resolveLoop cwd resolvedPath ps
    else if isAbsolute p then (p ++ "/" ++ resolvedPath, true)
    else resolveLoop cwd (p ++ "/" ++ resolvedPath) ps

/-- POSIX `path.resolve(...paths)` in a process whose working directory is `cwd`. -/
def resolve (cwd : String) (paths : List String) : String :=
  let r := resolveLoop cwd "" paths.reverse
  let normalized := normalizeString r.1 (!r.2)
  if r.2 then "/" ++ normalized
  else if normalized.data ≠ [] then normalized
  else "."

/-- POSIX `path.normalize(path)`. -/
def normalize (path : String) : String :=
  if path.data = [] then "."
  else
    let abs := isAbsolute path
    let trailingSeparator : Bool := path.data.getLast? = some '/'
    let p := normalizeString path (!abs)
    if p.data = [] then
      if abs then "/" else if trailingSeparator then "./" else "."
    else
      let p' := if trailingSeparator then p ++ "/" else p
      if abs then "/" ++ p' else p'

/-- The accumulation loop of `path.join`: `joined` is `none` while still `undefined`. -/
def joinLoop : Option String → List String → Option String
  | joined, [] => joined
  | joined, arg :: rest =>
    if arg.data ≠ [] then
      match joined with
      | none => joinLoop (some arg) rest
      | some j => joinLoop (some (j ++ "/" ++ arg)) rest
    else joinLoop joined rest

/-- POSIX `path.join(...args)`. -/
def join (args : List String) : String :=
  match joinLoop none args with
  | none => "."
  | some joined => normalize joined

/-! ## `Array.prototype.join` -/

/-- The loop of `Array.prototype.join`: `k` is the index of the next element and `r`
the text built so far; the separator is added before every element but the first. -/
def arrayJoinLoop (sep : String) : Nat → String → List String → String
  | _, r, [] => r
  | k, r, e :: es => arrayJoinLoop sep (k + 1) ((if k > 0 then r ++ sep else r) ++ e) es

/-- The call `xs.join(sep)` on an array of strings. -/
def arrayJoin (sep : String) (xs : List String) : String := arrayJoinLoop sep 0 "" xs

/-! ## Child processes and the effects of a run -/

/-- The options object handed to `execSync`. -/
structure ExecOptions where
  stdio : String
  env : Env

/-- An observable action of the launcher process. -/
inductive Effect where
  | execSync (command : String) (options : ExecOptions)
  | exit (code : Int)

/-- How the child process started by `execSync` ended: it exited with a code, it was
killed by a signal, or it could not be started. -/
inductive ChildOutcome where
  | exited (code : Nat)
  | signaled
  | spawnFailed
  deriving DecidableEq, Repr

/-- What a call of `execSync` does once the child is over: it returns, or it throws. -/
inductive ExecResult where
  | returned
  | threw (err : JsError)
  deriving DecidableEq, Repr

/-- Node's rule for `execSync`: the call returns when the child exited with code 0 and
throws otherwise; the thrown error carries the child's exit code as `status`, and
`null` when the child was killed by a signal or could not be started. -/
def childResult : ChildOutcome → ExecResult
  | .exited 0 => .returned
  | .exited (n + 1) => .threw ⟨.num ((n + 1 : Nat) : Int)⟩
  | .signaled => .threw ⟨.null⟩
  | .spawnFailed => .threw ⟨.null⟩

/-- The surroundings of the launcher: what the `execSync` call does for a command line
and options. -/
abbrev World := String → ExecOptions → ExecResult

/-- The way a piece of script finishes: normally, by a thrown value, or by ending the
process through `process.exit`. -/
inductive Completion (α : Type) where
  | normal (a : α)
  | throw (err : JsError)
  | exit (code : Int)

/-- A piece of script: it extends the trace of effects performed so far and finishes
with a completion. -/
abbrev Js (α : Type) := List Effect → Completion α × List Effect

/-- The call `execSync(command, options)`: one child-process invocation is recorded,
then the call returns or throws as the world decides. -/
def execSync (w : World) (command : String) (options : ExecOptions) : Js Unit :=
  fun tr =>
    let tr' := tr ++ [Effect.execSync command options]
    match w command options with
    | .returned => (.normal (), tr')
    | .threw err => (.throw err, tr')

/-- Node's `process.exit(code)`: the call is recorded with the value handed to it and
the process ends; nothing after it runs. -/
def processExit {α : Type} (code : Int) : Js α :=
  fun tr => (.exit code, tr ++ [Effect.exit code])

/-- The statement `try { body } catch (err) { handler }`. -/
def tryCatch {α : Type} (body : Js α) (handler : JsError → Js α) : Js α :=
  fun tr =>
    match body tr with
    | (.throw err, tr') => handler err tr'
    | r => r

/-! ## The script `bin/cli.js` -/

/-- What the script reads from its process: `__dirname`, the working directory,
`process.env`, and the command line, made of the path of the `node` executable, the
path of the script and the passthrough arguments. -/
structure Process where
  dirname : String
  cwd : String
  execPath : String
  scriptPath : String
  passthrough : List String
  env : Env

/-- The array `process.argv`. -/
def Process.argv (p : Process) : List String := p.execPath :: p.scriptPath :: p.passthrough

/-- The constant `packageRoot = path.resolve(__dirname, "..")`. -/
def packageRoot (p : Process) : String := resolve p.cwd [p.dirname, ".."]

/-- The constant `installScript = path.join(packageRoot, "install.sh")`. -/
def installScript (p : Process) : String := join [packageRoot p, "install.sh"]

/-- The constant `args = process.argv.slice(2).join(" ")`. -/
def args (p : Process) : String := arrayJoin " " (p.argv.drop 2)

/-- The template literal handed to `execSync`: bash, the quoted script path, a space,
the joined arguments. -/
def command (p : Process) : String := "bash \"" ++ installScript p ++ "\" " ++ args p

/-- The object literal `{ ...env, PACKAGE_ROOT: root }`. -/
def envWith (env : Env) (root : String) : Env :=
  (Env.spread Env.empty env).set "PACKAGE_ROOT" root

/-- The environment object `{ ...process.env, PACKAGE_ROOT: packageRoot }`. -/
def childEnv (p : Process) : Env := envWith p.env (packageRoot p)

/-- The options literal of the `execSync` call. -/
def options (p : Process) : ExecOptions := { stdio := "inherit", env := childEnv p }

/-- The exit status a POSIX process reports for the value handed to `process.exit`:
its low 8 bits, a number from 0 to 255. -/
def exitStatus (code : Int) : Int := code % 256

/-- The body of the script: the `try`/`catch` around the `execSync` call. -/
def cli (p : Process) (w : World) : Js Unit :=
  tryCatch (execSync w (command p) (options p))
    (fun err => processExit (err.status.orElse 1))

/-- One run of the launcher from an empty trace: the effects performed and the exit
code of the process. Falling off the end of the script exits with 0; `process.exit`
ends the process with the exit status of the value it was handed; a value thrown out
of the script would exit with 1. -/
def run (p : Process) (w : World) : List Effect × Int :=
  match cli p w [] with
  | (.normal _, tr) => (tr, 0)
  | (.exit code, tr) => (tr, exitStatus code)
  | (.throw _, tr) => (tr, 1)

/-- The exit code of a run, as the parent of the launcher observes it. -/
def exitCode (p : Process) (w : World) : Int := (run p w).2

/-- The effects of a run, in order. -/
def trace (p : Process) (w : World) : List Effect := (run p w).1

/-- Number of child-process invocations in a trace. -/
def execCount : List Effect → Nat
  | [] => 0
  | .execSync _ _ :: tr => execCount tr + 1
  | .exit _ :: tr => execCount tr

/-- A world in which the child ends as `outcome` whatever the command line. -/
def childWorld (outcome : ChildOutcome) : World := fun _ _ => childResult outcome

/-- Exit status of `bash <file>` when `<file>` does not exist (bash's `EX_NOTFOUND`). -/
def bashNotFound : Nat := 127

/-- The child `bash "<installScript>" ...` when the script file does not exist: bash
starts, reports the missing file and exits with `bashNotFound`. -/
def missingScriptChild : ChildOutcome := .exited bashNotFound

/-- The text of the invocation line after the fixed prefix made of bash, the quoted
script path and one space. -/
def trailingText (p : Process) : String :=
  String.mk ((command p).data.drop ("bash \"" ++ installScript p ++ "\" ").length)

/-- The blanks that separate words on a shell command line: space and tab. -/
def isBlank (c : Char) : Bool := c = ' ' || c = '\t'

/-- The characters the shell takes literally wherever they stand in an argument: ASCII
letters and digits and `-`, `_`, `=`, `.`, `/`, `:`, `,`, `+`, `@`, `%`. -/
def isPlainChar (c : Char) : Bool :=
  c.isAlphanum || c = '-' || c = '_' || c = '=' || c = '.' || c = '/' || c = ':' ||
    c = ',' || c = '+' || c = '@' || c = '%'

/-- The scanning loop that cuts a text into words at blanks: `cur` is the word being
read. -/
def wordsLoop (cur : List Char) : List Char → List String
  | [] => if cur = [] then [] else [String.mk cur]
  | c :: cs =>
    if isBlank c then
      if cur = [] then wordsLoop [] cs else String.mk cur :: wordsLoop [] cs
    else wordsLoop (cur ++ [c]) cs

/-- The arguments `/bin/sh -c` makes of a stretch of command-line text that holds
nothing but plain characters and blanks: the maximal runs of plain characters, in
order. A text with any other character (a quote, `$`, a backslash, `;`, `*`, `~`, `#`,
a newline, ...) falls under shell syntax that is not modelled here: the result is
`none`. -/
def shellWords (s : String) : Option (List String) :=
  if s.data.all (fun c => isPlainChar c || isBlank c) then some (wordsLoop [] s.data)
  else none

/-- A segment that names a directory entry: not empty, not `.`, not `..`, and free of
the separator. -/
def IsName (seg : List Char) : Prop :=
  seg ≠ [] ∧ seg ≠ ['.'] ∧ seg ≠ ['.', '.'] ∧ '/' ∉ seg

/-- The stack of kept segments after a `..` segment, as `normalizeSegs` leaves it. -/
def upStack (allowAboveRoot : Bool) : List (List Char) → List (List Char)
  | [] => if allowAboveRoot then [['.', '.']] else []
  | top :: rest =>
    if top = ['.', '.'] then
      if allowAboveRoot then ['.', '.'] :: top :: rest else top :: rest
    else rest

/-- The segments of an absolute path once empty, `.` and `..` segments are resolved. -/
def canonicalSegs (path : String) : List (List Char) :=
  normalizeSegs false [] (splitOn '/' path.data)

/-- The absolute path with the given segments below the root. -/
def absPath (segs : List (List Char)) : String := "/" ++ String.mk (joinWith '/' segs)

/-- The parent directory of an absolute path, as an absolute normalized path: the
canonical segments without the last one (the root is its own parent). -/
def parentDir (path : String) : String := absPath (canonicalSegs path).dropLast

/-- A sample parent environment. -/
def sampleEnv : Env := ⟨[("HOME", "/root"), ("PATH", "/usr/bin")], by decide⟩

/-- A parent environment with a variable whose name is an array index, as set up by
`env 7=seven`. -/
def indexedEnv : Env := ⟨[("7", "seven"), ("HOME", "/root")], by decide⟩

/-- The same process started with passthrough arguments `A`. -/
def Process.withArgs (p : Process) (A : List String) : Process :=
  { p with passthrough := A }

/-- A sample launcher process, installed under `/opt/toolkit/bin`. -/
def sampleProcess : Process :=
  { dirname := "/opt/toolkit/bin"
    cwd := "/home/dev"
    execPath := "/usr/bin/node"
    scriptPath := "/opt/toolkit/bin/cli.js"
    passthrough := ["--force", "--dir=/tmp/x"]
    env := sampleEnv }

/-! ## Exit codes and effects of a run -/

theorem run_returned (p : Process) (w : World)
    (h : w (command p) (options p) = .returned) :
    run p w = ([Effect.execSync (command p) (options p)], 0) := by
  simp [run, cli, tryCatch, execSync, h]

theorem run_threw (p : Process) (w : World) (err : JsError)
    (h : w (command p) (options p) = .threw err) :
    run p w = ([Effect.execSync (command p) (options p), Effect.exit (err.status.orElse 1)],
      exitStatus (err.status.orElse 1)) := by
  simp [run, cli, tryCatch, execSync, h, processExit]

theorem orElse_num (n : Int) : (Status.num n).orElse 1 = if n = 0 then 1 else n := by
  by_cases h : n = 0
  · simp [Status.orElse, Status.truthy, h]
  · simp [Status.orElse, Status.truthy, h]

/-- C1: when the child exits normally with code `N` (at most 255), the launcher exits
with exactly `N`: for `N = 0` the `execSync` call returns and the run ends with exit
code 0 after the invocation alone; for `N ≠ 0` the thrown error has status `N` and the
run ends with `process.exit(N)`. -/
theorem exit_code_propagated (p : Process) (w : World) (N : Nat) (hN : N ≤ 255)
    (hchild : w (command p) (options p) = childResult (.exited N)) :
    exitCode p w = (N : Int) ∧
    (N = 0 → w (command p) (options p) = .returned ∧
      trace p w = [Effect.execSync (command p) (options p)]) ∧
    (N ≠ 0 → w (command p) (options p) = .threw ⟨.num N⟩ ∧
      trace p w = [Effect.execSync (command p) (options p), Effect.exit N]) := by
  cases N with
  | zero =>
    have h : w (command p) (options p) = .returned := by simpa [childResult] using hchild
    simp [exitCode, trace, run_returned p w h, h]
  | succ n =>
    have h : w (command p) (options p) = .threw ⟨.num ((n + 1 : Nat) : Int)⟩ := by
      simpa [childResult] using hchild
    have hne : ¬ ((n : Int) + 1 = 0) := by omega
    have hmod : ((n : Int) + 1) % 256 = (n : Int) + 1 := by omega
    simp [exitCode, trace, run_threw p w _ h, h, orElse_num, exitStatus, hne, hmod]

theorem exit_code_propagated_witness :
    (3 : Nat) ≤ 255 ∧ exitCode sampleProcess (childWorld (.exited 3)) = 3 :=
  ⟨by decide,
    (exit_code_propagated sampleProcess (childWorld (.exited 3)) 3 (by decide) rfl).1⟩

/-- C5: when the child cannot be started or is killed by a signal, and more generally
whenever the thrown error's status is `undefined` or `null`, the launcher exits with
the fallback code 1. -/
theorem fallback_exit_code (p : Process) (w : World) :
    (w (command p) (options p) = childResult .spawnFailed → exitCode p w = 1) ∧
    (w (command p) (options p) = childResult .signaled → exitCode p w = 1) ∧
    (w (command p) (options p) = .threw ⟨.undefined⟩ → exitCode p w = 1) ∧
    (w (command p) (options p) = .threw ⟨.null⟩ → exitCode p w = 1) := by
  refine ⟨fun h => ?_, fun h => ?_, fun h => ?_, fun h => ?_⟩ <;>
    simp [exitCode, run_threw p w _ h, Status.orElse, exitStatus]

/-- C8, refuted as stated: an error thrown with status 256 makes the launcher call
`process.exit(256)`, and the exit status of the process is 0. -/
theorem thrown_status_exit_zero :
    trace sampleProcess (fun _ _ => .threw ⟨.num 256⟩) =
      [Effect.execSync (command sampleProcess) (options sampleProcess), Effect.exit 256] ∧
    exitCode sampleProcess (fun _ _ => .threw ⟨.num 256⟩) = 0 := by
  have h := run_threw sampleProcess (fun _ _ => .threw ⟨.num 256⟩) ⟨.num 256⟩ rfl
  constructor
  · simp [trace, h, orElse_num]
  · simp [exitCode, h, orElse_num, exitStatus]

/-- C8, amended: an error thrown by the child invocation gives a non-zero exit code
whenever its status is `undefined`, `null`, 0 or an integer that is not a multiple of
256 (every status from 1 to 255 among them); when `execSync` returns without throwing
the launcher exits with 0; and the launcher exits with 0 exactly when `execSync`
returned or the thrown status is a non-zero multiple of 256. -/
theorem failure_exit_nonzero (p : Process) (w : World) :
    (∀ err, w (command p) (options p) = .threw err →
      (∀ n, err.status = .num n → n = 0 ∨ n % 256 ≠ 0) → exitCode p w ≠ 0) ∧
    (∀ n : Int, 1 ≤ n → n ≤ 255 →
      w (command p) (options p) = .threw ⟨.num n⟩ → exitCode p w ≠ 0) ∧
    (w (command p) (options p) = .returned → exitCode p w = 0) ∧
    (exitCode p w = 0 ↔ (w (command p) (options p) = .returned ∨
      ∃ n, w (command p) (options p) = .threw ⟨.num n⟩ ∧ n ≠ 0 ∧ n % 256 = 0)) := by
  have h1 : ∀ err, w (command p) (options p) = .threw err →
      (∀ n, err.status = .num n → n = 0 ∨ n % 256 ≠ 0) → exitCode p w ≠ 0 := by
    intro err h hst
    simp only [exitCode, run_threw p w err h]
    cases hs : err.status with
    | undefined => simp [Status.orElse, exitStatus]
    | null => simp [Status.orElse, exitStatus]
    | num n =>
      rw [orElse_num]
      rcases hst n hs with h0 | hm
      · simp [h0, exitStatus]
      · have hn : n ≠ 0 := by
          intro e
          rw [e] at hm
          exact hm (by decide)
        simpa [hn, exitStatus] using hm
  have h3 : w (command p) (options p) = .returned → exitCode p w = 0 := by
    intro h
    simp [exitCode, run_returned p w h]
  refine ⟨h1, ?_, h3, ?_⟩
  · intro n hlo hhi h
    refine h1 _ h ?_
    intro m hm
    have hmn : n = m := by simpa using hm
    right
    omega
  · constructor
    · intro h0
      cases h : w (command p) (options p) with
      | returned => exact Or.inl rfl
      | threw err =>
        right
        obtain ⟨st⟩ := err
        cases st with
        | undefined => exact absurd h0 (h1 _ h (by intro n hn; cases hn))
        | null => exact absurd h0 (h1 _ h (by intro n hn; cases hn))
        | num n =>
          by_cases hn : n = 0 ∨ n % 256 ≠ 0
          · refine absurd h0 (h1 _ h ?_)
            intro m hm
            have hmn : n = m := by simpa using hm
            rw [← hmn]
            exact hn
          · refine ⟨n, rfl, ?_, ?_⟩
            · exact fun e => hn (Or.inl e)
            · by_contra hc
              exact hn (Or.inr hc)
    · rintro (h | ⟨n, h, hn, hm⟩)
      · exact h3 h
      · simp [exitCode, run_threw p w _ h, orElse_num, hn, exitStatus, hm]

/-- C9: every run performs exactly one child-process invocation, as the first effect of
the trace, and the only effect that can follow it is a single `process.exit`. -/
theorem one_invocation (p : Process) (w : World) :
    execCount (trace p w) = 1 ∧
    (trace p w = [Effect.execSync (command p) (options p)] ∨
      ∃ code, trace p w = [Effect.execSync (command p) (options p), Effect.exit code]) := by
  cases h : w (command p) (options p) with
  | returned => simp [trace, run_returned p w h, execCount]
  | threw err => simp [trace, run_threw p w err h, execCount]

theorem fallback_exit_code_witness :
    exitCode sampleProcess (childWorld .spawnFailed) = 1 ∧
    exitCode sampleProcess (childWorld .signaled) = 1 :=
  ⟨(fallback_exit_code sampleProcess (childWorld .spawnFailed)).1 rfl,
    (fallback_exit_code sampleProcess (childWorld .signaled)).2.1 rfl⟩

theorem failure_exit_nonzero_witness :
    exitCode sampleProcess (fun _ _ => .threw ⟨.num 0⟩) ≠ 0 ∧
    exitCode sampleProcess (fun _ _ => .threw ⟨.num 2⟩) ≠ 0 :=
  ⟨(failure_exit_nonzero sampleProcess (fun _ _ => .threw ⟨.num 0⟩)).1 ⟨.num 0⟩ rfl
      (fun n hn => Or.inl (by cases hn; rfl)),
    (failure_exit_nonzero sampleProcess (fun _ _ => .threw ⟨.num 2⟩)).2.1 2
      (by decide) (by decide) rfl⟩

/-! ## The invocation line -/

theorem intercalate_go_append (sep acc x : String) (l : List String) :
    String.intercalate.go (acc ++ x) sep l = acc ++ String.intercalate.go x sep l := by
  induction l generalizing x with
  | nil => simp [String.intercalate.go]
  | cons a t ih =>
    simp only [String.intercalate.go]
    rw [String.append_assoc acc x sep, String.append_assoc acc (x ++ sep) a, ih]

theorem intercalate_cons_cons (sep a b : String) (t : List String) :
    sep.intercalate (a :: b :: t) = a ++ sep ++ sep.intercalate (b :: t) := by
  simp only [String.intercalate, String.intercalate.go]
  exact intercalate_go_append sep (a ++ sep) b t

theorem arrayJoinLoop_pos (sep : String) (k : Nat) (hk : 0 < k) (r : String)
    (es : List String) :
    arrayJoinLoop sep k r es = String.intercalate.go r sep es := by
  induction es generalizing k r with
  | nil => simp [arrayJoinLoop, String.intercalate.go]
  | cons e t ih =>
    simp only [arrayJoinLoop, String.intercalate.go, gt_iff_lt, hk, if_true]
    exact ih (k + 1) (Nat.succ_pos k) _

theorem arrayJoin_eq_intercalate (sep : String) (xs : List String) :
    arrayJoin sep xs = sep.intercalate xs := by
  cases xs with
  | nil => simp [arrayJoin, arrayJoinLoop, String.intercalate]
  | cons e t =>
    simp only [arrayJoin, arrayJoinLoop, String.intercalate, gt_iff_lt, Nat.lt_irrefl,
      if_false, String.empty_append]
    exact arrayJoinLoop_pos sep 1 Nat.one_pos e t

theorem command_eq (p : Process) :
    command p = "bash \"" ++ installScript p ++ "\" " ++ " ".intercalate p.passthrough := by
  simp only [command, args, Process.argv, List.drop_succ_cons, List.drop_zero,
    arrayJoin_eq_intercalate]

theorem trailingText_eq (p : Process) :
    trailingText p = " ".intercalate p.passthrough := by
  apply String.ext
  simp only [trailingText, command_eq p, String.data_append]
  have hlen : ("bash \"" ++ installScript p ++ "\" ").length =
      ("bash \"".data ++ (installScript p).data ++ "\" ".data).length := by
    rw [← String.data_append, ← String.data_append]
    rfl
  rw [hlen, List.drop_left]

theorem installScript_withArgs (p : Process) (A : List String) :
    installScript (p.withArgs A) = installScript p := rfl

/-- C2: the invocation line is the fixed prefix (bash, the quoted script path, one
space) followed by the passthrough arguments joined with single spaces and nothing
else; for the arguments `--force` and `--dir=/tmp/x` the trailing text is
`--force --dir=/tmp/x`, and for no arguments it is empty. -/
theorem invocation_line (p : Process) (A : List String) :
    command (p.withArgs A) = "bash \"" ++ installScript p ++ "\" " ++ " ".intercalate A ∧
    trailingText (p.withArgs A) = " ".intercalate A ∧
    trailingText (p.withArgs ["--force", "--dir=/tmp/x"]) = "--force --dir=/tmp/x" ∧
    trailingText (p.withArgs []) = "" := by
  refine ⟨?_, ?_, ?_, ?_⟩
  · rw [command_eq, installScript_withArgs]; rfl
  · rw [trailingText_eq]; rfl
  · rw [trailingText_eq]; rfl
  · rw [trailingText_eq]; rfl

/-- C10: the map from argument lists to invocation lines is not injective: the lists
`["a b"]` and `["a", "b"]` give the same line, and so do `[]` and `[""]`; hence no
splitting rule recovers every argument list from its invocation line. -/
theorem command_not_injective (p : Process) :
    command (p.withArgs ["a b"]) = command (p.withArgs ["a", "b"]) ∧
    (["a b"] : List String) ≠ ["a", "b"] ∧
    command (p.withArgs []) = command (p.withArgs [""]) ∧
    ([] : List String) ≠ [""] ∧
    ¬ Function.Injective (fun A => command (p.withArgs A)) ∧
    ¬ ∃ split : String → List String, ∀ A, split (command (p.withArgs A)) = A := by
  have h1 : command (p.withArgs ["a b"]) = command (p.withArgs ["a", "b"]) := by
    rw [command_eq, command_eq]; rfl
  have h2 : command (p.withArgs []) = command (p.withArgs [""]) := by
    rw [command_eq, command_eq]; rfl
  refine ⟨h1, by decide, h2, by decide, ?_, ?_⟩
  · intro hinj
    exact absurd (hinj h2) (by decide)
  · rintro ⟨split, hsplit⟩
    have h := hsplit []
    rw [h2, hsplit [""]] at h
    exact absurd h (by decide)

/-! ## The arguments the shell makes of the trailing text -/

theorem isBlank_of_isPlainChar (c : Char) (h : isPlainChar c = true) : isBlank c = false := by
  by_cases hs : c = ' '
  · subst hs; exact absurd h (by decide)
  · by_cases ht : c = '\t'
    · subst ht; exact absurd h (by decide)
    · simp [isBlank, hs, ht]

theorem wordsLoop_append (w : List Char) (hw : ∀ c ∈ w, isBlank c = false)
    (cur rest : List Char) :
    wordsLoop cur (w ++ rest) = wordsLoop (cur ++ w) rest := by
  induction w generalizing cur with
  | nil => simp
  | cons c t ih =>
    have hc : isBlank c = false := hw c (List.mem_cons_self c t)
    have ht : ∀ d ∈ t, isBlank d = false := fun d hd => hw d (List.mem_cons_of_mem c hd)
    have step : wordsLoop cur (c :: (t ++ rest)) = wordsLoop (cur ++ [c]) (t ++ rest) := by
      simp [wordsLoop, hc]
    rw [List.cons_append, step, ih ht (cur ++ [c])]
    simp

theorem wordsLoop_intercalate (A : List String)
    (hA : ∀ a ∈ A, a ≠ "" ∧ ∀ c ∈ a.data, isBlank c = false) :
    wordsLoop [] (" ".intercalate A).data = A := by
  induction A with
  | nil => simp [String.intercalate, wordsLoop]
  | cons a t ih =>
    have ha := hA a (List.mem_cons_self a t)
    have hne : a.data ≠ [] := fun h => ha.1 (String.ext h)
    cases t with
    | nil =>
      have h := wordsLoop_append a.data ha.2 [] []
      simp only [List.append_nil, List.nil_append] at h
      simp [String.intercalate, String.intercalate.go, h, wordsLoop, hne]
    | cons b t' =>
      have ih' := ih (fun x hx => hA x (List.mem_cons_of_mem a hx))
      rw [intercalate_cons_cons]
      simp only [String.data_append]
      rw [List.append_assoc, wordsLoop_append a.data ha.2]
      have hs : isBlank ' ' = true := by decide
      simp [wordsLoop, hs, hne, ih']

theorem all_plain_intercalate (A : List String)
    (hA : ∀ a ∈ A, ∀ c ∈ a.data, isPlainChar c = true) :
    ∀ c ∈ (" ".intercalate A).data, (isPlainChar c || isBlank c) = true := by
  induction A with
  | nil => simp [String.intercalate]
  | cons a t ih =>
    have ha : ∀ c ∈ a.data, (isPlainChar c || isBlank c) = true := by
      intro c hc
      simp [hA a (List.mem_cons_self a t) c hc]
    cases t with
    | nil => simpa [String.intercalate, String.intercalate.go] using ha
    | cons b t' =>
      have ih' := ih (fun x hx => hA x (List.mem_cons_of_mem a hx))
      rw [intercalate_cons_cons]
      intro c hc
      simp only [String.data_append, List.mem_append] at hc
      rcases hc with (hc | hc) | hc
      · exact ha c hc
      · have hsp : c = ' ' := by simpa using hc
        subst hsp
        decide
      · exact ih' c hc

/-- C3, refuted as stated: for the single argument `a b` the script receives the two
arguments `a` and `b`, not the argument list; and whatever way the arguments are
obtained from the invocation line, it cannot give back both `["a b"]` and
`["a", "b"]`. -/
theorem forwarded_verbatim_fails :
    shellWords (trailingText (sampleProcess.withArgs ["a b"])) = some ["a", "b"] ∧
    (["a", "b"] : List String) ≠ ["a b"] ∧
    ¬ ∃ receive : String → List String,
      receive (command (sampleProcess.withArgs ["a b"])) = ["a b"] ∧
      receive (command (sampleProcess.withArgs ["a", "b"])) = ["a", "b"] := by
  refine ⟨by decide, by decide, ?_⟩
  rintro ⟨receive, h1, h2⟩
  have hcmd : command (sampleProcess.withArgs ["a b"]) =
      command (sampleProcess.withArgs ["a", "b"]) := by
    rw [command_eq, command_eq]; rfl
  rw [hcmd, h2] at h1
  exact absurd h1 (by decide)

/-- C3, amended: when every passthrough argument is non-empty and made only of plain
characters (ASCII letters, digits and `-`, `_`, `=`, `.`, `/`, `:`, `,`, `+`, `@`,
`%`), the arguments made of the trailing text of the invocation line are exactly the
argument list. -/
theorem forwarded_words (p : Process) (A : List String)
    (hA : ∀ a ∈ A, a ≠ "" ∧ ∀ c ∈ a.data, isPlainChar c = true) :
    shellWords (trailingText (p.withArgs A)) = some A := by
  rw [trailingText_eq]
  show shellWords (" ".intercalate A) = some A
  have hall : (" ".intercalate A).data.all (fun c => isPlainChar c || isBlank c) = true :=
    List.all_eq_true.mpr (all_plain_intercalate A (fun a ha => (hA a ha).2))
  have hwords := wordsLoop_intercalate A
    (fun a ha => ⟨(hA a ha).1, fun c hc => isBlank_of_isPlainChar c ((hA a ha).2 c hc)⟩)
  simp only [shellWords, hall, if_true, hwords]

theorem forwarded_words_witness :
    shellWords (trailingText (sampleProcess.withArgs ["--force", "--dir=/tmp/x"])) =
      some ["--force", "--dir=/tmp/x"] :=
  forwarded_words sampleProcess ["--force", "--dir=/tmp/x"] (by decide)

/-! ## The child environment -/

theorem lookup_setProp (l : List (String × String)) (k v k' : String) :
    (setProp l k v).lookup k' = if k' = k then some v else l.lookup k' := by
  induction l with
  | nil =>
    by_cases h : k' = k
    · simp [setProp, List.lookup, h]
    · have hb : (k' == k) = false := beq_eq_false_iff_ne.mpr h
      simp [setProp, List.lookup, h, hb]
  | cons hd tl ih =>
    obtain ⟨a, b⟩ := hd
    by_cases hak : a = k
    · subst hak
      by_cases h : k' = a
      · simp [setProp, List.lookup, h]
      · have hb : (k' == a) = false := beq_eq_false_iff_ne.mpr h
        simp [setProp, List.lookup, h, hb]
    · by_cases h : k' = a
      · subst h
        simp [setProp, List.lookup, hak]
      · have hb : (k' == a) = false := beq_eq_false_iff_ne.mpr h
        simp [setProp, List.lookup, hak, hb, ih]

theorem keys_setProp (l : List (String × String)) (k v : String) :
    (setProp l k v).map Prod.fst =
      if k ∈ l.map Prod.fst then l.map Prod.fst else l.map Prod.fst ++ [k] := by
  induction l with
  | nil => simp [setProp]
  | cons hd tl ih =>
    obtain ⟨k', v'⟩ := hd
    by_cases h : k' = k
    · simp [setProp, h]
    · have h' : ¬ k = k' := fun e => h e.symm
      simp only [setProp, h, if_false, List.map_cons, ih, List.mem_cons, h', false_or]
      split <;> simp

theorem setProp_of_not_mem (l : List (String × String)) (k v : String)
    (h : k ∉ l.map Prod.fst) : setProp l k v = l ++ [(k, v)] := by
  induction l with
  | nil => simp [setProp]
  | cons hd tl ih =>
    obtain ⟨a, b⟩ := hd
    have hne : ¬ a = k := fun e => h (by simp [e])
    have htl : k ∉ tl.map Prod.fst := fun hm => h (by simp at hm ⊢; exact Or.inr hm)
    simp [setProp, hne, ih htl]

theorem foldl_set_props (l : List (String × String)) (t : Env)
    (h : (t.props.map Prod.fst ++ l.map Prod.fst).Nodup) :
    (l.foldl (fun o kv => o.set kv.1 kv.2) t).props = t.props ++ l := by
  induction l generalizing t with
  | nil => simp
  | cons hd tl ih =>
    obtain ⟨a, b⟩ := hd
    have ha : a ∉ t.props.map Prod.fst := by
      intro hm
      rw [List.nodup_append] at h
      exact h.2.2 hm (by simp)
    have hset : (t.set a b).props = t.props ++ [(a, b)] := setProp_of_not_mem t.props a b ha
    simp only [List.foldl_cons]
    rw [ih (t.set a b) (by rw [hset]; simpa using h), hset]
    simp

theorem nodup_keys_filter (l : List (String × String)) (q : String × String → Bool)
    (h : (l.map Prod.fst).Nodup) : ((l.filter q).map Prod.fst).Nodup :=
  List.Nodup.sublist (List.Sublist.map Prod.fst (List.filter_sublist l)) h

theorem spread_empty_props (E : Env) :
    (Env.spread Env.empty E).props = E.props.filter (fun kv => !isArrayIndex kv.1) := by
  have h := foldl_set_props (E.props.filter (fun kv => !isArrayIndex kv.1)) Env.empty
    (by simpa [Env.empty] using nodup_keys_filter E.props _ E.nodup)
  simpa [Env.spread, Env.empty] using h

theorem envWith_props (E : Env) (R : String) :
    (envWith E R).props =
      setProp (E.props.filter (fun kv => !isArrayIndex kv.1)) "PACKAGE_ROOT" R := by
  simp [envWith, Env.set, spread_empty_props]

theorem lookup_filter_keys (l : List (String × String)) (q : String → Bool) (k : String)
    (hk : q k = true) : (l.filter (fun kv => q kv.1)).lookup k = l.lookup k := by
  induction l with
  | nil => simp
  | cons hd tl ih =>
    obtain ⟨a, b⟩ := hd
    by_cases hka : k = a
    · subst hka
      simp [List.filter_cons, hk, List.lookup]
    · have hb : (k == a) = false := beq_eq_false_iff_ne.mpr hka
      by_cases hq : q a = true
      · simp [List.filter_cons, hq, List.lookup, hb, ih]
      · simp [List.filter_cons, hq, List.lookup, hb, ih]

theorem keys_filter (l : List (String × String)) (q : String → Bool) :
    (l.filter (fun kv => q kv.1)).map Prod.fst = (l.map Prod.fst).filter q := by
  induction l with
  | nil => simp
  | cons hd tl ih =>
    by_cases hq : q hd.1 = true
    · simp [List.filter_cons, hq, ih]
    · simp [List.filter_cons, hq, ih]

theorem packageRootKey_not_index : isArrayIndex "PACKAGE_ROOT" = false := by decide

/-- C4, refuted as stated: a parent variable named `7` is not carried over to the
child environment, although the parent environment defines it. -/
theorem index_variable_dropped :
    indexedEnv.get "7" = some "seven" ∧
    (envWith indexedEnv "/opt/toolkit").get "7" = none ∧
    (envWith indexedEnv "/opt/toolkit").keys = ["HOME", "PACKAGE_ROOT"] := by
  decide

/-- C4, amended: the environment handed to the child maps `PACKAGE_ROOT` to the package
root and maps every other name that is not an array index to what the parent
environment maps it to; every parent variable with such a name is kept, and among
such names the child has the parent's names plus `PACKAGE_ROOT` when it was not
there. -/
theorem child_env_frame (E : Env) (R : String) :
    (envWith E R).get "PACKAGE_ROOT" = some R ∧
    (∀ k, k ≠ "PACKAGE_ROOT" → isArrayIndex k = false → (envWith E R).get k = E.get k) ∧
    (∀ k, k ∈ E.keys → isArrayIndex k = false → k ∈ (envWith E R).keys) ∧
    (envWith E R).keys.filter (fun k => !isArrayIndex k) =
      (if "PACKAGE_ROOT" ∈ E.keys then E.keys.filter (fun k => !isArrayIndex k)
        else E.keys.filter (fun k => !isArrayIndex k) ++ ["PACKAGE_ROOT"]) ∧
    (∀ p : Process, (options p).env = envWith p.env (packageRoot p)) := by
  have hmem : "PACKAGE_ROOT" ∈ (E.props.map Prod.fst).filter (fun k => !isArrayIndex k) ↔
      "PACKAGE_ROOT" ∈ E.keys := by
    simp [Env.keys, List.mem_filter, packageRootKey_not_index]
  have hkeys : (envWith E R).keys =
      (if "PACKAGE_ROOT" ∈ E.keys then E.keys.filter (fun k => !isArrayIndex k)
        else E.keys.filter (fun k => !isArrayIndex k) ++ ["PACKAGE_ROOT"]) := by
    simp only [Env.keys, envWith_props, keys_setProp,
      keys_filter E.props (fun k => !isArrayIndex k), hmem]
  refine ⟨?_, ?_, ?_, ?_, fun p => rfl⟩
  · simp [Env.get, envWith_props, lookup_setProp]
  · intro k hk hidx
    have hq : (fun k => !isArrayIndex k) k = true := by simp [hidx]
    simp only [Env.get, envWith_props, lookup_setProp, hk, if_false]
    exact lookup_filter_keys E.props (fun k => !isArrayIndex k) k hq
  · intro k hk hidx
    have hin : k ∈ E.keys.filter (fun k => !isArrayIndex k) := by
      simp [List.mem_filter, hk, hidx]
    rw [hkeys]
    split
    · exact hin
    · exact List.mem_append_left _ hin
  · rw [hkeys]
    split
    · simp
    · simp [List.filter_append, packageRootKey_not_index]

theorem child_env_frame_witness :
    (envWith sampleEnv "/opt/toolkit").get "HOME" = sampleEnv.get "HOME" :=
  (child_env_frame sampleEnv "/opt/toolkit").2.1 "HOME" (by decide) (by decide)

/-! ## Paths: segments, normalisation, `resolve` and `join` -/

theorem splitOn_ne_nil (sep : Char) (l : List Char) : splitOn sep l ≠ [] := by
  induction l with
  | nil => simp [splitOn]
  | cons c t ih =>
    by_cases h : c = sep
    · simp [splitOn, h]
    · cases hs : splitOn sep t with
      | nil => exact absurd hs ih
      | cons seg segs => simp [splitOn, h, hs]

theorem splitOn_append_sep (sep : Char) (l r : List Char) :
    splitOn sep (l ++ sep :: r) = splitOn sep l ++ splitOn sep r := by
  induction l with
  | nil => simp [splitOn]
  | cons c t ih =>
    by_cases h : c = sep
    · simp [splitOn, h, ih]
    · cases hs : splitOn sep t with
      | nil => exact absurd hs (splitOn_ne_nil sep t)
      | cons seg segs => simp [splitOn, h, ih, hs]

theorem splitOn_of_not_mem (sep : Char) (l : List Char) (h : sep ∉ l) :
    splitOn sep l = [l] := by
  induction l with
  | nil => simp [splitOn]
  | cons c t ih =>
    have hc : ¬ c = sep := fun e => h (by simp [e])
    have ht : sep ∉ t := fun hm => h (List.mem_cons_of_mem c hm)
    simp [splitOn, hc, ih ht]

theorem not_mem_of_mem_splitOn (sep : Char) (l : List Char) :
    ∀ s ∈ splitOn sep l, sep ∉ s := by
  induction l with
  | nil => simp [splitOn]
  | cons c t ih =>
    by_cases h : c = sep
    · intro s hs
      simp only [splitOn, h, if_true, List.mem_cons] at hs
      rcases hs with rfl | hs
      · simp
      · exact ih s hs
    · cases hsp : splitOn sep t with
      | nil => exact absurd hsp (splitOn_ne_nil sep t)
      | cons seg segs =>
        rw [hsp] at ih
        intro s hs
        simp only [splitOn, h, if_false, hsp, List.mem_cons] at hs
        rcases hs with rfl | hs
        · have hseg := ih seg (List.mem_cons_self seg segs)
          intro hm
          rcases List.mem_cons.mp hm with e | hm'
          · exact h e.symm
          · exact hseg hm'
        · exact ih s (List.mem_cons_of_mem seg hs)

theorem splitOn_joinWith (sep : Char) (T : List (List Char)) (hT : T ≠ [])
    (hsep : ∀ s ∈ T, sep ∉ s) : splitOn sep (joinWith sep T) = T := by
  induction T with
  | nil => exact absurd rfl hT
  | cons a t ih =>
    cases t with
    | nil => simpa [joinWith] using splitOn_of_not_mem sep a (hsep a (List.mem_cons_self a []))
    | cons b t' =>
      have ih' := ih (by simp) (fun s hs => hsep s (List.mem_cons_of_mem a hs))
      simp only [joinWith]
      rw [splitOn_append_sep, ih', splitOn_of_not_mem sep a (hsep a (List.mem_cons_self a _))]
      rfl

theorem joinWith_append_singleton (sep : Char) (T : List (List Char)) (hT : T ≠ [])
    (x : List Char) : joinWith sep (T ++ [x]) = joinWith sep T ++ sep :: x := by
  induction T with
  | nil => exact absurd rfl hT
  | cons a t ih =>
    cases t with
    | nil => simp [joinWith]
    | cons b t' =>
      have ih' := ih (by simp)
      simp only [List.cons_append] at ih' ⊢
      simp only [joinWith, ih', List.append_assoc, List.cons_append]

theorem normalizeSegs_skip (b : Bool) (acc : List (List Char)) (seg : List Char)
    (segs : List (List Char)) (h : seg = [] ∨ seg = ['.']) :
    normalizeSegs b acc (seg :: segs) = normalizeSegs b acc segs := by
  simp only [normalizeSegs, h, if_true]

theorem normalizeSegs_push (b : Bool) (acc : List (List Char)) (seg : List Char)
    (segs : List (List Char)) (h1 : ¬ (seg = [] ∨ seg = ['.'])) (h2 : seg ≠ ['.', '.']) :
    normalizeSegs b acc (seg :: segs) = normalizeSegs b (seg :: acc) segs := by
  simp only [normalizeSegs, h1, h2, if_false]

theorem normalizeSegs_up (b : Bool) (acc : List (List Char)) (segs : List (List Char)) :
    normalizeSegs b acc (['.', '.'] :: segs) = normalizeSegs b (upStack b acc) segs := by
  have h1 : ¬ ((['.', '.'] : List Char) = [] ∨ (['.', '.'] : List Char) = ['.']) := by decide
  cases acc with
  | nil =>
    cases b <;> simp [normalizeSegs, upStack]
  | cons top rest =>
    by_cases ht : top = ['.', '.']
    · cases b <;> simp [normalizeSegs, upStack, ht]
    · simp [normalizeSegs, upStack, ht]

theorem normalizeSegs_append (b : Bool) (xs ys : List (List Char)) (acc : List (List Char)) :
    normalizeSegs b acc (xs ++ ys) = normalizeSegs b (normalizeSegs b acc xs).reverse ys := by
  induction xs generalizing acc with
  | nil => simp [normalizeSegs]
  | cons seg segs ih =>
    rw [List.cons_append]
    by_cases h1 : seg = [] ∨ seg = ['.']
    · rw [normalizeSegs_skip b acc seg _ h1, normalizeSegs_skip b acc seg _ h1]
      exact ih acc
    · by_cases h2 : seg = ['.', '.']
      · subst h2
        rw [normalizeSegs_up, normalizeSegs_up]
        exact ih _
      · rw [normalizeSegs_push b acc seg _ h1 h2, normalizeSegs_push b acc seg _ h1 h2]
        exact ih _

theorem normalizeSegs_names (b : Bool) (T : List (List Char)) (hT : ∀ s ∈ T, IsName s)
    (acc : List (List Char)) : normalizeSegs b acc T = acc.reverse ++ T := by
  induction T generalizing acc with
  | nil => simp [normalizeSegs]
  | cons seg segs ih =>
    obtain ⟨h0, h1, h2, _⟩ := hT seg (List.mem_cons_self seg segs)
    have ih' := ih (fun s hs => hT s (List.mem_cons_of_mem seg hs)) (seg :: acc)
    rw [normalizeSegs_push b acc seg _ (by simp [h0, h1]) h2, ih']
    simp

theorem upStack_false_isName (acc : List (List Char)) (hacc : ∀ s ∈ acc, IsName s) :
    ∀ s ∈ upStack false acc, IsName s := by
  cases acc with
  | nil => simp [upStack]
  | cons top rest =>
    by_cases ht : top = ['.', '.']
    · simpa [upStack, ht] using hacc
    · intro s hs
      simp only [upStack, ht, if_false] at hs
      exact hacc s (List.mem_cons_of_mem top hs)

theorem normalizeSegs_isName (segs : List (List Char)) (hsegs : ∀ s ∈ segs, '/' ∉ s)
    (acc : List (List Char)) (hacc : ∀ s ∈ acc, IsName s) :
    ∀ s ∈ normalizeSegs false acc segs, IsName s := by
  induction segs generalizing acc with
  | nil => simpa [normalizeSegs] using hacc
  | cons seg rest ih =>
    have hrest : ∀ s ∈ rest, '/' ∉ s := fun s hs => hsegs s (List.mem_cons_of_mem seg hs)
    by_cases h1 : seg = [] ∨ seg = ['.']
    · rw [normalizeSegs_skip false acc seg _ h1]
      exact ih hrest acc hacc
    · by_cases h2 : seg = ['.', '.']
      · subst h2
        rw [normalizeSegs_up]
        exact ih hrest _ (upStack_false_isName acc hacc)
      · rw [normalizeSegs_push false acc seg _ h1 h2]
        refine ih hrest (seg :: acc) ?_
        intro s hs
        rcases List.mem_cons.mp hs with rfl | hs
        · exact ⟨fun e => h1 (Or.inl e), fun e => h1 (Or.inr e), h2,
            hsegs s (List.mem_cons_self s rest)⟩
        · exact hacc s hs

theorem canonicalSegs_isName (path : String) : ∀ s ∈ canonicalSegs path, IsName s :=
  normalizeSegs_isName _ (not_mem_of_mem_splitOn '/' path.data) [] (by simp)

theorem normalizeSegs_parent (st : List (List Char)) (hst : ∀ s ∈ st, IsName s) :
    normalizeSegs false st [['.', '.'], []] = st.reverse.dropLast := by
  cases st with
  | nil => simp [normalizeSegs]
  | cons top rest =>
    have htop : top ≠ ['.', '.'] := (hst top (List.mem_cons_self top rest)).2.2.1
    simp [normalizeSegs, htop]

theorem data_ne_nil_of_isAbsolute (D : String) (hD : isAbsolute D = true) : D.data ≠ [] := by
  intro h
  simp [isAbsolute, h] at hD

theorem isAbsolute_absPath (T : List (List Char)) : isAbsolute (absPath T) = true := by
  simp [isAbsolute, absPath]

theorem resolve_parent (cwd D : String) (hD : isAbsolute D = true) :
    resolve cwd [D, ".."] = parentDir D := by
  have hne : D.data ≠ [] := data_ne_nil_of_isAbsolute D hD
  have hdd : isAbsolute ".." = false := by decide
  have hloop : resolveLoop cwd "" ["..", D] = (D ++ "/" ++ (".." ++ "/" ++ ""), true) := by
    simp [resolveLoop, hne, hD, hdd]
  have hdata : (D ++ "/" ++ (".." ++ "/" ++ "")).data = D.data ++ '/' :: ['.', '.', '/'] := by
    simp [String.data_append]
  have htail : splitOn '/' ['.', '.', '/'] = [['.', '.'], []] := by decide
  have hnames : ∀ s ∈ (canonicalSegs D).reverse, IsName s := by
    intro s hs
    exact canonicalSegs_isName D s (List.mem_reverse.mp hs)
  have hsegs : normalizeSegs false [] (splitOn '/' (D.data ++ '/' :: ['.', '.', '/'])) =
      (canonicalSegs D).dropLast := by
    rw [splitOn_append_sep, htail, normalizeSegs_append]
    show normalizeSegs false (canonicalSegs D).reverse [['.', '.'], []] = _
    rw [normalizeSegs_parent _ hnames, List.reverse_reverse]
  simp only [resolve, List.reverse_cons, List.reverse_nil, List.nil_append, List.singleton_append,
    hloop, Bool.not_true, if_true, normalizeString, hdata, hsegs]
  rfl

theorem canonicalSegs_absPath (T : List (List Char)) (hT : ∀ s ∈ T, IsName s) :
    canonicalSegs (absPath T) = T := by
  have hdata : (absPath T).data = '/' :: joinWith '/' T := by
    simp [absPath, String.data_append]
  have hsplit : splitOn '/' ('/' :: joinWith '/' T) = [] :: splitOn '/' (joinWith '/' T) := by
    simp [splitOn]
  rw [canonicalSegs, hdata, hsplit, normalizeSegs_skip false [] [] _ (Or.inl rfl)]
  cases T with
  | nil => simp [joinWith, splitOn, normalizeSegs]
  | cons a t =>
    rw [splitOn_joinWith '/' (a :: t) (by simp) (fun s hs => (hT s hs).2.2.2),
      normalizeSegs_names false (a :: t) hT]
    simp

theorem resolve_absPath (cwd : String) (T : List (List Char)) (hT : ∀ s ∈ T, IsName s) :
    resolve cwd [absPath T] = absPath T := by
  have hne : (absPath T).data ≠ [] := data_ne_nil_of_isAbsolute _ (isAbsolute_absPath T)
  have hloop : resolveLoop cwd "" [absPath T] = (absPath T ++ "/" ++ "", true) := by
    simp [resolveLoop, hne, isAbsolute_absPath]
  have hdata : (absPath T ++ "/" ++ "").data = (absPath T).data ++ '/' :: [] := by
    simp [String.data_append]
  have hsegs : normalizeSegs false [] (splitOn '/' ((absPath T).data ++ '/' :: [])) = T := by
    rw [splitOn_append_sep, normalizeSegs_append]
    show normalizeSegs false (canonicalSegs (absPath T)).reverse (splitOn '/' []) = T
    rw [canonicalSegs_absPath T hT]
    simp [splitOn, normalizeSegs]
  simp only [resolve, List.reverse_cons, List.reverse_nil, List.nil_append,
    hloop, Bool.not_true, if_true, normalizeString, hdata, hsegs]
  rfl

theorem isName_install : IsName "install.sh".data := by
  refine ⟨by decide, by decide, by decide, by decide⟩

theorem join_install (T : List (List Char)) (hT : ∀ s ∈ T, IsName s) :
    join [absPath T, "install.sh"] = absPath (T ++ ["install.sh".data]) := by
  have hne : (absPath T).data ≠ [] := data_ne_nil_of_isAbsolute _ (isAbsolute_absPath T)
  have hi : ("install.sh" : String).data ≠ [] := by decide
  have hloop : joinLoop none [absPath T, "install.sh"] =
      some (absPath T ++ "/" ++ "install.sh") := by
    simp [joinLoop, hne, hi]
  have hdata : (absPath T ++ "/" ++ "install.sh").data =
      (absPath T).data ++ '/' :: "install.sh".data := by
    simp [String.data_append]
  have hsegs : normalizeSegs false [] (splitOn '/' ((absPath T).data ++ '/' :: "install.sh".data))
      = T ++ ["install.sh".data] := by
    rw [splitOn_append_sep, normalizeSegs_append]
    show normalizeSegs false (canonicalSegs (absPath T)).reverse _ = _
    rw [canonicalSegs_absPath T hT, splitOn_of_not_mem '/' _ isName_install.2.2.2,
      normalizeSegs_names false _ (by simpa using isName_install)]
    simp
  have hjne : joinWith '/' (T ++ ["install.sh".data]) ≠ [] := by
    cases T with
    | nil => simp [joinWith]
    | cons a t => rw [joinWith_append_singleton '/' (a :: t) (by simp)]; simp
  have habs : isAbsolute (absPath T ++ "/" ++ "install.sh") = true := by
    simp [isAbsolute, absPath, String.data_append]
  have hlast : (absPath T ++ "/" ++ "install.sh").data.getLast? = some 'h' := by
    rw [hdata]
    simp [List.getLast?_append, List.getLast?_cons_cons]
  have hdne : (absPath T ++ "/" ++ "install.sh").data ≠ [] := by
    rw [hdata]; simp
  have hns : normalizeString (absPath T ++ "/" ++ "install.sh") false =
      String.mk (joinWith '/' (T ++ ["install.sh".data])) := by
    simp only [normalizeString, hdata, hsegs]
  have hh : ¬ (some 'h' = some '/') := by decide
  simp only [join, hloop, normalize, hdne, if_false, habs, Bool.not_true, hlast, hns, hjne,
    if_true, hh, decide_False, Bool.false_eq_true]
  rfl

theorem absPath_append_install (T : List (List Char)) (hT : ∀ s ∈ T, IsName s) :
    absPath (T ++ ["install.sh".data]) =
      if absPath T = "/" then "/install.sh" else absPath T ++ "/install.sh" := by
  cases T with
  | nil =>
    have h : absPath [] = "/" := by decide
    rw [if_pos h]
    decide
  | cons a t =>
    have ha : a ≠ [] := (hT a (List.mem_cons_self a t)).1
    have hj : joinWith '/' (a :: t) ≠ [] := by
      cases t with
      | nil => simpa [joinWith] using ha
      | cons b t' => simp [joinWith]
    have hne : absPath (a :: t) ≠ "/" := by
      intro h
      have hd := congrArg String.data h
      simp [absPath, String.data_append] at hd
      exact hj hd
    rw [if_neg hne]
    apply String.ext
    have hjoin := joinWith_append_singleton '/' (a :: t) (by simp) "install.sh".data
    simp only [absPath, String.data_append, hjoin, List.append_assoc]

/-- C7: for an absolute launcher directory, the package root is its parent directory
as an absolute normalized path, `PACKAGE_ROOT` in the child environment is that package
root, and the companion script path is the package root joined with `install.sh`: an
absolute path whose parent directory is the package root. -/
theorem package_root_layout (p : Process) (hD : isAbsolute p.dirname = true) :
    packageRoot p = parentDir p.dirname ∧
    isAbsolute (packageRoot p) = true ∧
    resolve p.cwd [packageRoot p] = packageRoot p ∧
    (childEnv p).get "PACKAGE_ROOT" = some (packageRoot p) ∧
    installScript p = join [packageRoot p, "install.sh"] ∧
    installScript p =
      (if packageRoot p = "/" then "/install.sh" else packageRoot p ++ "/install.sh") ∧
    isAbsolute (installScript p) = true ∧
    resolve p.cwd [installScript p, ".."] = packageRoot p := by
  have hroot : packageRoot p = absPath (canonicalSegs p.dirname).dropLast :=
    resolve_parent p.cwd p.dirname hD
  have hT : ∀ s ∈ (canonicalSegs p.dirname).dropLast, IsName s := fun s hs =>
    canonicalSegs_isName p.dirname s (List.mem_of_mem_dropLast hs)
  have hscript : installScript p =
      absPath ((canonicalSegs p.dirname).dropLast ++ ["install.sh".data]) := by
    rw [installScript, hroot, join_install _ hT]
  have hT' : ∀ s ∈ (canonicalSegs p.dirname).dropLast ++ ["install.sh".data], IsName s := by
    intro s hs
    rcases List.mem_append.mp hs with h | h
    · exact hT s h
    · rw [List.mem_singleton.mp h]; exact isName_install
  refine ⟨hroot, ?_, ?_, ?_, rfl, ?_, ?_, ?_⟩
  · rw [hroot]; exact isAbsolute_absPath _
  · rw [hroot]; exact resolve_absPath p.cwd _ hT
  · simp [childEnv, Env.get, envWith_props, lookup_setProp]
  · rw [hscript, hroot]; exact absPath_append_install _ hT
  · rw [hscript]; exact isAbsolute_absPath _
  · rw [resolve_parent p.cwd (installScript p) (by rw [hscript]; exact isAbsolute_absPath _),
      parentDir, hscript, canonicalSegs_absPath _ hT', List.dropLast_concat, hroot]

theorem package_root_layout_witness :
    isAbsolute sampleProcess.dirname = true ∧
    packageRoot sampleProcess = parentDir sampleProcess.dirname ∧
    resolve sampleProcess.cwd [installScript sampleProcess, ".."] = packageRoot sampleProcess :=
  ⟨by decide, (package_root_layout sampleProcess (by decide)).1,
    (package_root_layout sampleProcess (by decide)).2.2.2.2.2.2.2⟩

/-! ## A missing companion script -/

/-- C6, refuted as stated: when the companion script does not exist, bash ends with
status 127 and the launcher's exit code is 127, not 1. -/
theorem missing_script_not_one :
    exitCode sampleProcess (childWorld missingScriptChild) = 127 ∧
    exitCode sampleProcess (childWorld missingScriptChild) ≠ 1 := by
  decide

/-- C6, amended: when the companion script does not exist, bash starts and ends with
its non-zero status for a missing file, and the launcher exits with exactly that
status; the run consists of the one child invocation followed by that
`process.exit`, and nothing else. -/
theorem missing_script_exit (p : Process) (w : World)
    (hchild : w (command p) (options p) = childResult missingScriptChild) :
    exitCode p w = (bashNotFound : Int) ∧
    exitCode p w ≠ 0 ∧
    trace p w = [Effect.execSync (command p) (options p), Effect.exit bashNotFound] := by
  have h : w (command p) (options p) = .threw ⟨.num 127⟩ := by
    rw [hchild]; rfl
  simp only [exitCode, trace, run_threw p w _ h]
  refine ⟨?_, ?_, ?_⟩ <;> simp [orElse_num, exitStatus, bashNotFound]

theorem missing_script_exit_witness :
    exitCode sampleProcess (childWorld missingScriptChild) = (bashNotFound : Int) :=
  (missing_script_exit sampleProcess (childWorld missingScriptChild) rfl).1

end Launcher
